import Mathlib

/-!
Verification of the snapshot pull engine (`cmd/snapshot_pull.go`).

The command's control flow (`aptlySnapshotPull`) is embedded directly from
the source.  The `deb` package operations it calls (`Search`, `Add`,
`Remove`, `VerifyDependencies`, `ParseDependency`, `Architectures`) and the
snapshot registry are not part of the source tree; they are modelled from
the specification (sections 4.1-4.5 and 6), as indicated on each definition.
Package versions are modelled as naturals: the spec's Debian-style version
comparison is opaque to the pull engine, which only needs a total order.
The closure loop and the inner remove loop are written with explicit fuel;
sufficiency of the fuel is proved below (`loopGo_completes`).
-/

namespace deb

/-- Modelled from the spec (4.1): version-constraint operators
`<<, <=, =, >=, >>`. -/
inductive RelOp where
  | lt
  | le
  | eq
  | ge
  | gt
deriving DecidableEq, Repr

/-- Modelled from the spec (3, 4.1): a parsed dependency expression —
package name, architecture (empty string until bound), optional version
constraint.  Equality is structural (derived). -/
structure Dependency where
  Pkg : String
  Architecture : String
  constraint : Option (RelOp × Nat)
deriving DecidableEq, Repr

/-- Modelled from the spec (3): an immutable package: name, version,
architecture, plus its declared requires-relations kept as raw strings
(opaque metadata, parsed only during verification). -/
structure Package where
  Name : String
  Version : Nat
  Architecture : String
  requires : List String
deriving DecidableEq, Repr

/-- Modelled from the spec (4.1): relational operator evaluation. -/
def evalOp : RelOp → Nat → Nat → Bool
  | .lt, pv, v => decide (pv < v)
  | .le, pv, v => decide (pv ≤ v)
  | .eq, pv, v => decide (pv = v)
  | .ge, pv, v => decide (v ≤ pv)
  | .gt, pv, v => decide (v < pv)

/-- Modelled from the spec (4.1, 4.2): a package matches an expression when
the name matches exactly, the architecture matches exactly, and the version
constraint (if present) is satisfied. -/
def matchesb (d : Dependency) (p : Package) : Bool :=
  decide (p.Name = d.Pkg) && decide (p.Architecture = d.Architecture) &&
    match d.constraint with
    | none => true
    | some (op, v) => evalOp op p.Version v

/-- Modelled from the spec (4.2): indexed search.  With `allMatches` every
match is returned unfiltered; otherwise only the single highest-version
match (first such match as the deterministic tie-break).  The empty list
models the `nil` result of the Go `Search`. -/
def Search (l : List Package) (d : Dependency) (allMatches : Bool) : List Package :=
  let ms := l.filter (matchesb d)
  if allMatches then ms
  else
    match ms with
    | [] => []
    | x :: rest => [rest.foldl (fun b p => if b.Version < p.Version then p else b) x]

/-- Modelled from the spec (4.2): `add` inserts a package reference,
idempotent if an identical reference is already present. -/
def Add (l : List Package) (p : Package) : List Package :=
  if p ∈ l then l else l ++ [p]

/-- Modelled from the spec (4.2): `remove` removes by identity (first
occurrence). -/
def Remove (l : List Package) (p : Package) : List Package :=
  l.erase p

/-- Modelled from the spec (4.2): distinct architectures present in the
set, excluding the source pseudo-architecture unless requested. -/
def Architectures (l : List Package) (includeSource : Bool) : List String :=
  ((l.map Package.Architecture).dedup).filter
    (fun a => includeSource || decide (a ≠ "source"))

/-- Modelled from the spec (4.1): digits of a version number. -/
def natOfDigits (cs : List Char) : Option Nat :=
  if cs ≠ [] ∧ cs.all Char.isDigit then
    some (cs.foldl (fun n c => n * 10 + (c.toNat - 48)) 0)
  else none

/-- Modelled from the spec (4.1): the five relational operators. -/
def parseOp : List Char → Option RelOp
  | ['<', '<'] => some .lt
  | ['<', '='] => some .le
  | ['='] => some .eq
  | ['>', '='] => some .ge
  | ['>', '>'] => some .gt
  | _ => none

/-- Modelled from the spec (4.1): parse the textual grammar
`name[ (op version)]`, failing on anything else (`MalformedDependency`). -/
def ParseDependency (s : String) : Except String Dependency :=
  let cs := s.toList
  let name := cs.takeWhile (fun c => c != ' ')
  let rest := cs.dropWhile (fun c => c != ' ')
  if name = [] then .error "invalid dependency"
  else
    match rest with
    | [] => .ok { Pkg := name.asString, Architecture := "", constraint := none }
    | ' ' :: r2 =>
      match r2 with
      | '(' :: r3 =>
        let opCs := r3.takeWhile (fun c => c != ' ')
        match r3.dropWhile (fun c => c != ' '), parseOp opCs with
        | ' ' :: r5, some op =>
          match r5.getLast?, natOfDigits r5.dropLast with
          | some ')', some v =>
            .ok { Pkg := name.asString, Architecture := "", constraint := some (op, v) }
          | _, _ => .error "invalid dependency"
        | _, _ => .error "invalid dependency"
      | _ => .error "invalid dependency"
    | _ => .error "invalid dependency"

/-- Modelled from the spec (4.3): for one parsed requires-relation, bind it
to each architecture in turn and collect it when unsatisfied in `context`
and not already collected (deduplication). -/
def checkArchs (context : List Package) (d0 : Dependency) (archs : List String)
    (ms : List Dependency) : List Dependency :=
  archs.foldl
    (fun ms2 a =>
      let da := { d0 with Architecture := a }
      if Search context da false = [] ∧ da ∉ ms2 then ms2 ++ [da] else ms2)
    ms

/-- Modelled from the spec (4.3): process the requires-relations of one
package; a malformed relation yields an `InvalidRelation` error for that
package (first error kept) while processing continues. -/
def checkReqList (context : List Package) (pkgName : String) (reqs : List String)
    (archs : List String) (acc : List Dependency × Option String) :
    List Dependency × Option String :=
  reqs.foldl
    (fun acc2 r =>
      match ParseDependency r with
      | .error _ =>
        (acc2.1,
          match acc2.2 with
          | some m => some m
          | none => some (pkgName ++ ": invalid relation"))
      | .ok d0 => (checkArchs context d0 archs acc2.1, acc2.2))
    acc

/-- Modelled from the spec (4.3): the dependency verifier.  For each
candidate package, its requires-relations are expanded into expressions
scoped to the given architectures; those unsatisfied by `context`
(searched with `all_matches = false`) are returned, deduplicated, together
with an optional `InvalidRelation` error. -/
def VerifyDependencies (candidate : List Package) (archs : List String)
    (context : List Package) : List Dependency × Option String :=
  candidate.foldl (fun acc pkg => checkReqList context pkg.Name pkg.requires archs acc)
    ([], none)

end deb

/-- The diagnostics emitted by the pull loop, mirroring the four
`ColoredPrintf` calls of `aptlySnapshotPull`. -/
inductive Diag where
  | added (p : deb.Package)
  | removed (p : deb.Package)
  | unsatisfiable (d : deb.Dependency)
  | verifyError (p : deb.Package) (msg : String)
deriving DecidableEq, Repr

/-- The local state of the per-architecture closure loop of
`aptlySnapshotPull`: the growable work list `dependencies`, the loop index
`i`, the destination list `packageList`, the source list
`sourcePackageList`, the emitted diagnostics, and the shared `err`
variable. -/
structure LoopState where
  deps : List deb.Dependency
  i : Nat
  dest : List deb.Package
  src : List deb.Package
  log : List Diag
  errVar : Option String
deriving Repr

/-- Lines 143-155 of the source: append each missing dependency unless a
structurally equal expression is already in the list. -/
def appendMissing (ds : List deb.Dependency) (ms : List deb.Dependency) :
    List deb.Dependency :=
  ms.foldl (fun ds2 d => if d ∈ ds2 then ds2 else ds2 ++ [d]) ds

/-- Lines 111-117 of the source: repeatedly search the destination for
packages with the given name and architecture and remove every result,
until the search comes back empty.  The fuel argument makes the loop
structural; `removeLoop` supplies provably sufficient fuel. -/
def removeLoopFuel :
    Nat → List deb.Package → String → String → Bool → List Diag →
      List deb.Package × List Diag
  | 0, dest, _, _, _, log => (dest, log)
  | f + 1, dest, name, arch, allM, log =>
    let pS := deb.Search dest { Pkg := name, Architecture := arch, constraint := none } allM
    if pS = [] then (dest, log)
    else
      removeLoopFuel f (pS.foldl deb.Remove dest) name arch allM
        (log ++ pS.map Diag.removed)

/-- The remove loop with its fuel instantiated: each round removes at least
one package, so `dest.length + 1` rounds always reach the empty search. -/
def removeLoop (dest : List deb.Package) (name arch : String) (allM : Bool)
    (log : List Diag) : List deb.Package × List Diag :=
  removeLoopFuel (dest.length + 1) dest name arch allM log

/-- Lines 133-156 of the source: add one search result to the accumulating
list `pL`, verify `pL` against the destination, report a verification
error as a diagnostic (non-fatal), store the error in the shared `err`
variable, and append the missing dependencies to the work list. -/
def processPkg (a : String) (acc : List deb.Package × LoopState) (pkg : deb.Package) :
    List deb.Package × LoopState :=
  let pL := deb.Add acc.1 pkg
  let st := acc.2
  let res := deb.VerifyDependencies pL [a] st.dest
  let log2 :=
    match res.2 with
    | some m => st.log ++ [Diag.verifyError pkg m]
    | none => st.log
  (pL, { st with log := log2, errVar := res.2, deps := appendMissing st.deps res.1 })

/-- Lines 98-157 of the source: one iteration of the closure loop at index
`i`: search the source; on an empty result record an unsatisfiable
diagnostic and move on; otherwise remove same-name-same-architecture
packages (unless `noRemove`), add every match, and (unless `noDeps`)
verify the matches one by one. -/
def step (noDeps noRemove allM : Bool) (a : String) (st : LoopState) : LoopState :=
  if h : st.i < st.deps.length then
    let dep := st.deps[st.i]
    let res := deb.Search st.src dep allM
    if res = [] then
      { st with i := st.i + 1, log := st.log ++ [Diag.unsatisfiable dep] }
    else
      let rm :=
        if noRemove then (st.dest, st.log)
        else
          res.foldl (fun dl pkg => removeLoop dl.1 pkg.Name pkg.Architecture allM dl.2)
            (st.dest, st.log)
      let ad := res.foldl (fun dl pkg => (deb.Add dl.1 pkg, dl.2 ++ [Diag.added pkg])) rm
      let st1 := { st with dest := ad.1, log := ad.2 }
      if noDeps then { st1 with i := st.i + 1 }
      else
        let st2 := (res.foldl (processPkg a) ([], st1)).2
        { st2 with i := st.i + 1 }
  else st

/-- The closure loop `for i := 0; i < len(dependencies); i++`, with
explicit fuel (each unit of fuel funds one iteration). -/
def loopGo (noDeps noRemove allM : Bool) (a : String) : Nat → LoopState → LoopState
  | 0, st => st
  | f + 1, st =>
    if st.i < st.deps.length then
      loopGo noDeps noRemove allM a f (step noDeps noRemove allM a st)
    else st

/-- The dependency expressions obtainable from a list of raw
requires-relations, bound to architecture `a`. -/
def boundReqs (a : String) (reqs : List String) : List deb.Dependency :=
  reqs.filterMap
    (fun r =>
      match deb.ParseDependency r with
      | .ok d => some { d with Architecture := a }
      | .error _ => none)

/-- Every dependency expression the closure can ever append for
architecture `a`: the parsed requires-relations of the source packages,
bound to `a`, deduplicated. -/
def exprUniverse (src : List deb.Package) (a : String) : List deb.Dependency :=
  ((src.map (fun p => boundReqs a p.requires)).flatten).dedup

/-- Fuel that provably suffices for the closure loop: the work list can
never grow past the initial expressions plus the expression universe. -/
def fuelFor (src : List deb.Package) (initial : List deb.Dependency) (a : String) : Nat :=
  initial.length + (exprUniverse src a).length

/-- Lines 91-95 of the source: the state at the top of one architecture's
closure: the initial dependencies with their architecture bound to `a`,
index zero. -/
def seedState (initial : List deb.Dependency) (a : String) (src dest : List deb.Package)
    (log : List Diag) (ev : Option String) : LoopState :=
  { deps := initial.map (fun d => { d with Architecture := a }), i := 0,
    dest := dest, src := src, log := log, errVar := ev }

/-- The state shared across architectures: destination list, diagnostics,
and the `err` variable. -/
structure CoreState where
  dest : List deb.Package
  log : List Diag
  errVar : Option String
deriving Repr

/-- One architecture's closure, returning the full final loop state. -/
def pullArchState (noDeps noRemove allM : Bool) (src : List deb.Package)
    (initial : List deb.Dependency) (a : String) (cs : CoreState) : LoopState :=
  loopGo noDeps noRemove allM a (fuelFor src initial a)
    (seedState initial a src cs.dest cs.log cs.errVar)

/-- One architecture's closure, projected back to the shared state. -/
def pullArch (noDeps noRemove allM : Bool) (src : List deb.Package)
    (initial : List deb.Dependency) (a : String) (cs : CoreState) : CoreState :=
  let st := pullArchState noDeps noRemove allM src initial a cs
  { dest := st.dest, log := st.log, errVar := st.errVar }

/-- Lines 90-158 of the source: the whole pull, one architecture after the
other in list order. -/
def pullCore (noDeps noRemove allM : Bool) (src : List deb.Package)
    (archs : List String) (initial : List deb.Dependency)
    (dest0 : List deb.Package) : CoreState :=
  archs.foldl (fun cs a => pullArch noDeps noRemove allM src initial a cs)
    { dest := dest0, log := [], errVar := none }

/-- Modelled from the spec (3, 4.5): an immutable snapshot with its
provenance. -/
structure Snapshot where
  Name : String
  Parents : List String
  packages : List deb.Package
  description : String
deriving DecidableEq, Repr

/-- The inputs of `aptlySnapshotPull` after the out-of-scope loading phase:
the two snapshots materialized as package lists, the user arguments, the
flag values, the externally configured architectures and the names already
present in the snapshot registry. -/
structure PullInput where
  snapName : String
  srcName : String
  destName : String
  depArgs : List String
  destList : List deb.Package
  srcList : List deb.Package
  externalArchs : List String
  registryNames : List String
  noDeps : Bool
  noRemove : Bool
  allMatches : Bool
  dryRun : Bool
deriving Repr

/-- The observable outcome of `aptlySnapshotPull`: the final destination
list, the diagnostics, the snapshot persisted to the registry (if any) and
the function's returned error. -/
structure PullOutput where
  dest : List deb.Package
  log : List Diag
  snapshot : Option Snapshot
  ret : Option String
deriving DecidableEq, Repr

/-- Line 74 of the source: `sort.Strings`. -/
def sortStrings (l : List String) : List String :=
  List.insertionSort (fun a b => a ≤ b) l

/-- Lines 66-74 of the source: use the externally supplied architecture
list when non-empty, otherwise derive it from the destination; sort. -/
def targetArchitectures (inp : PullInput) : List String :=
  sortStrings
    (if inp.externalArchs ≠ [] then inp.externalArchs
     else deb.Architectures inp.destList false)

/-- Lines 81-87 of the source: parse the dependency arguments in order,
returning the first parse error. -/
def parseDependencyList : List String → Except String (List deb.Dependency)
  | [] => .ok []
  | s :: rest =>
    match deb.ParseDependency s with
    | .error e => .error e
    | .ok d =>
      match parseDependencyList rest with
      | .error e => .error e
      | .ok ds => .ok (d :: ds)

/-- Line 165 of the source: the new snapshot's description. -/
def pullDescription (inp : PullInput) : String :=
  "Pulled into '" ++ inp.snapName ++ "' with '" ++ inp.srcName ++
    "' as source, pull request was: '" ++ String.intercalate " " inp.depArgs ++ "'"

/-- The command body (`cmd/snapshot_pull.go`, lines 13-175), after the
out-of-scope loading phase: argument-count check, architecture
calculation, argument parsing, the per-architecture closure, and finally
either the dry run or the snapshot creation (which fails on a duplicate
name in the registry, modelled from spec section 6).  The returned `ret`
reuses the shared `err` variable exactly as the source does. -/
def aptlySnapshotPull (inp : PullInput) : PullOutput :=
  if inp.depArgs = [] then
    { dest := inp.destList, log := [], snapshot := none, ret := some "command error" }
  else
    let archs := targetArchitectures inp
    if archs = [] then
      { dest := inp.destList, log := [], snapshot := none,
        ret := some "unable to determine list of architectures, please specify explicitly" }
    else
      match parseDependencyList inp.depArgs with
      | .error e =>
        { dest := inp.destList, log := [], snapshot := none,
          ret := some ("unable to parse argument: " ++ e) }
      | .ok initial =>
        let core := pullCore inp.noDeps inp.noRemove inp.allMatches inp.srcList archs
          initial inp.destList
        if inp.dryRun then
          { dest := core.dest, log := core.log, snapshot := none, ret := core.errVar }
        else if inp.destName ∈ inp.registryNames then
          { dest := core.dest, log := core.log, snapshot := none,
            ret := some "unable to create snapshot: duplicate name" }
        else
          { dest := core.dest, log := core.log,
            snapshot := some
              { Name := inp.destName, Parents := [inp.snapName, inp.srcName],
                packages := core.dest, description := pullDescription inp },
            ret := none }

/-- The packages reported as added, in order, among the diagnostics. -/
def addedOf (log : List Diag) : List deb.Package :=
  log.filterMap
    (fun d =>
      match d with
      | Diag.added p => some p
      | _ => none)

/-- How many packages of the list share the given name and architecture
(any version). -/
def countNameArch (l : List deb.Package) (n a : String) : Nat :=
  l.countP (deb.matchesb { Pkg := n, Architecture := a, constraint := none })

/-- At most one version per (name, architecture) pair. -/
def AtMostOne (l : List deb.Package) : Prop :=
  ∀ n a, countNameArch l n a ≤ 1

/-- The number of distinct (name, architecture) pairs of a package list
(the `D` of the spec's termination bound). -/
def distinctNameArch (l : List deb.Package) : Nat :=
  ((l.map (fun p => (p.Name, p.Architecture))).dedup).length

/-- The loop has processed its whole work list. -/
def completes (st : LoopState) : Prop :=
  st.deps.length ≤ st.i

/-- A pull of `a` with `all-matches` from a source holding two versions of
`a`: both get added. -/
def c1Input : PullInput :=
  { snapName := "dst", srcName := "src", destName := "new", depArgs := ["a"],
    destList := [],
    srcList := [{ Name := "a", Version := 1, Architecture := "amd64", requires := [] },
                { Name := "a", Version := 2, Architecture := "amd64", requires := [] }],
    externalArchs := ["amd64"], registryNames := [],
    noDeps := true, noRemove := false, allMatches := true, dryRun := true }

/-- The spec's closure scenario: `a 2` requires `b (>= 1)`, `b 1` present. -/
def c1WitnessInput : PullInput :=
  { snapName := "dst", srcName := "src", destName := "new", depArgs := ["a"],
    destList := [],
    srcList := [{ Name := "a", Version := 2, Architecture := "amd64",
                  requires := ["b (>= 1)"] },
                { Name := "b", Version := 1, Architecture := "amd64", requires := [] }],
    externalArchs := ["amd64"], registryNames := [],
    noDeps := false, noRemove := false, allMatches := false, dryRun := true }

/-- A no-deps pull of `a`. -/
def c3Input : PullInput :=
  { snapName := "dst", srcName := "src", destName := "new", depArgs := ["a"],
    destList := [],
    srcList := [{ Name := "a", Version := 1, Architecture := "amd64", requires := [] }],
    externalArchs := ["amd64"], registryNames := [],
    noDeps := true, noRemove := false, allMatches := false, dryRun := true }

/-- No external architectures and an empty destination: no architecture can
be derived. -/
def c5Input : PullInput :=
  { snapName := "dst", srcName := "src", destName := "new", depArgs := ["a"],
    destList := [], srcList := [], externalArchs := [], registryNames := [],
    noDeps := false, noRemove := false, allMatches := false, dryRun := false }

/-- The second of three dependency arguments is malformed. -/
def c6Input : PullInput :=
  { snapName := "dst", srcName := "src", destName := "new",
    depArgs := ["a", "b (", "c"],
    destList := [], srcList := [], externalArchs := ["amd64"], registryNames := [],
    noDeps := false, noRemove := false, allMatches := false, dryRun := false }

/-- A successful non-dry-run pull that persists a snapshot. -/
def c7Input : PullInput :=
  { snapName := "dst", srcName := "src", destName := "new", depArgs := ["a"],
    destList := [],
    srcList := [{ Name := "a", Version := 2, Architecture := "amd64",
                  requires := ["b (>= 1)"] },
                { Name := "b", Version := 1, Architecture := "amd64", requires := [] }],
    externalArchs := ["amd64"], registryNames := [],
    noDeps := false, noRemove := false, allMatches := false, dryRun := false }

/-- A dry run in which the last dependency-verification call fails: the
pulled package `a` carries the malformed relation `y (`. -/
def c10Input : PullInput :=
  { snapName := "dst", srcName := "src", destName := "new", depArgs := ["a"],
    destList := [],
    srcList := [{ Name := "a", Version := 1, Architecture := "amd64",
                  requires := ["y ("] }],
    externalArchs := ["amd64"], registryNames := [],
    noDeps := false, noRemove := false, allMatches := false, dryRun := true }

/-- The work-list invariant behind the termination bound: the list is the
seed followed by pairwise-distinct expressions drawn from the given
universe. -/
def WInv (seed : List deb.Dependency) (U : List deb.Dependency) (st : LoopState) : Prop :=
  ∃ extra, st.deps = seed ++ extra ∧ extra.Nodup ∧ ∀ d ∈ extra, d ∈ U

/-! ### Basic properties of search and removal -/

theorem pick_mem (x : deb.Package) (rest : List deb.Package) :
    rest.foldl (fun b p => if b.Version < p.Version then p else b) x ∈ x :: rest := by
  induction rest generalizing x with
  | nil => simp
  | cons p ps ih =>
    simp only [List.foldl_cons]
    rcases List.mem_cons.mp (ih (if x.Version < p.Version then p else x)) with h1 | h1
    · by_cases hv : x.Version < p.Version
      · rw [h1]; simp [hv]
      · rw [h1]; simp [hv]
    · simp [h1]

theorem Search_subset {l : List deb.Package} {d : deb.Dependency} {am : Bool}
    {p : deb.Package} (h : p ∈ deb.Search l d am) : p ∈ l := by
  unfold deb.Search at h
  by_cases ham : am
  · simp only [ham, if_pos] at h
    exact List.mem_of_mem_filter h
  · simp only [ham, if_neg, Bool.false_eq_true, if_false] at h
    rcases hm : l.filter (deb.matchesb d) with _ | ⟨x, rest⟩
    · rw [hm] at h; simp at h
    · rw [hm] at h
      rcases List.mem_singleton.mp h with h1
      have hx : x :: rest = l.filter (deb.matchesb d) := hm.symm
      have : (rest.foldl (fun b p => if b.Version < p.Version then p else b) x) ∈ x :: rest :=
        pick_mem x rest
      rw [h1]
      exact List.mem_of_mem_filter (hx ▸ this)

theorem Search_matchesb {l : List deb.Package} {d : deb.Dependency} {am : Bool}
    {p : deb.Package} (h : p ∈ deb.Search l d am) : deb.matchesb d p = true := by
  unfold deb.Search at h
  by_cases ham : am
  · simp only [ham, if_pos] at h
    exact List.of_mem_filter h
  · simp only [ham, if_neg, Bool.false_eq_true, if_false] at h
    rcases hm : l.filter (deb.matchesb d) with _ | ⟨x, rest⟩
    · rw [hm] at h; simp at h
    · rw [hm] at h
      rcases List.mem_singleton.mp h with h1
      have hx : x :: rest = l.filter (deb.matchesb d) := hm.symm
      have : (rest.foldl (fun b p => if b.Version < p.Version then p else b) x) ∈ x :: rest :=
        pick_mem x rest
      rw [h1]
      exact List.of_mem_filter (hx ▸ this)

theorem Search_eq_nil_iff {l : List deb.Package} {d : deb.Dependency} {am : Bool} :
    deb.Search l d am = [] ↔ l.filter (deb.matchesb d) = [] := by
  unfold deb.Search
  by_cases ham : am
  · simp [ham]
  · simp only [ham, if_neg, Bool.false_eq_true, if_false]
    rcases hm : l.filter (deb.matchesb d) with _ | ⟨x, rest⟩
    · simp
    · simp

theorem Search_false_cases (l : List deb.Package) (d : deb.Dependency) :
    deb.Search l d false = [] ∨ ∃ m, deb.Search l d false = [m] := by
  rcases hm : l.filter (deb.matchesb d) with _ | ⟨x, rest⟩
  · left
    unfold deb.Search
    simp [hm]
  · right
    refine ⟨rest.foldl (fun b p => if b.Version < p.Version then p else b) x, ?_⟩
    unfold deb.Search
    simp [hm]

theorem foldl_Remove_length_le (ps : List deb.Package) (l : List deb.Package) :
    (ps.foldl deb.Remove l).length ≤ l.length := by
  induction ps generalizing l with
  | nil => simp
  | cons p ps ih =>
    simp only [List.foldl_cons]
    exact le_trans (ih (deb.Remove l p)) ((l.erase_sublist p).length_le)

theorem foldl_Remove_length_lt {p : deb.Package} {l : List deb.Package}
    (ps : List deb.Package) (hp : p ∈ l) :
    ((p :: ps).foldl deb.Remove l).length < l.length := by
  simp only [List.foldl_cons]
  have h1 : (ps.foldl deb.Remove (deb.Remove l p)).length ≤ (l.erase p).length :=
    foldl_Remove_length_le ps (deb.Remove l p)
  have h2 : (l.erase p).length = l.length - 1 := List.length_erase_of_mem hp
  have h3 : 0 < l.length := List.length_pos.mpr (List.ne_nil_of_mem hp)
  omega

theorem filter_erase_of_pred {m : deb.Package → Bool} {p : deb.Package}
    (hp : m p = true) (l : List deb.Package) :
    (l.erase p).filter (fun x => !m x) = l.filter (fun x => !m x) := by
  induction l with
  | nil => simp
  | cons x xs ih =>
    rw [List.erase_cons]
    by_cases hx : x = p
    · subst hx
      rw [if_pos (by simp)]
      rw [List.filter_cons_of_neg (by simp [hp])]
    · rw [if_neg (by simp [hx])]
      rw [List.filter_cons, List.filter_cons, ih]

theorem filter_foldl_Remove {m : deb.Package → Bool} (ps : List deb.Package)
    (l : List deb.Package) (h : ∀ q ∈ ps, m q = true) :
    ((ps.foldl deb.Remove l).filter (fun x => !m x)) = l.filter (fun x => !m x) := by
  induction ps generalizing l with
  | nil => simp
  | cons p ps ih =>
    simp only [List.foldl_cons]
    rw [ih (deb.Remove l p) (fun q hq => h q (List.mem_cons_of_mem p hq))]
    exact filter_erase_of_pred (h p (List.mem_cons_self p ps)) l

theorem removeLoopFuel_fst {n a : String} {am : Bool} :
    ∀ {f : Nat} {dest : List deb.Package} {log : List Diag}, dest.length ≤ f →
    (removeLoopFuel f dest n a am log).1
      = dest.filter (fun p => !(deb.matchesb { Pkg := n, Architecture := a, constraint := none } p)) := by
  intro f
  induction f with
  | zero =>
    intro dest log hf
    have : dest = [] := List.length_eq_zero.mp (Nat.le_zero.mp hf)
    subst this
    simp [removeLoopFuel]
  | succ f ih =>
    intro dest log hf
    rw [removeLoopFuel]
    by_cases hp : deb.Search dest { Pkg := n, Architecture := a, constraint := none } am = []
    · simp only [hp, if_pos]
      have hfil : dest.filter
          (deb.matchesb { Pkg := n, Architecture := a, constraint := none }) = [] :=
        Search_eq_nil_iff.mp hp
      have hall : ∀ x ∈ dest,
          (!(deb.matchesb { Pkg := n, Architecture := a, constraint := none } x)) = true := by
        intro x hx
        have := List.filter_eq_nil_iff.mp hfil x hx
        simp [this]
      exact (List.filter_eq_self.mpr hall).symm
    · simp only [hp, if_neg, if_false]
      rcases List.exists_cons_of_ne_nil hp with ⟨q, qs, hq⟩
      have hqmem : q ∈ dest := Search_subset (by rw [hq]; exact List.mem_cons_self q qs)
      have hlt : ((q :: qs).foldl deb.Remove dest).length < dest.length :=
        foldl_Remove_length_lt qs hqmem
      have hle : ((deb.Search dest { Pkg := n, Architecture := a, constraint := none } am).foldl
          deb.Remove dest).length ≤ f := by
        rw [hq]; omega
      rw [ih hle]
      exact filter_foldl_Remove _ dest (fun x hx => Search_matchesb hx)

theorem removeLoop_fst (dest : List deb.Package) (n a : String) (am : Bool) (log : List Diag) :
    (removeLoop dest n a am log).1
      = dest.filter (fun p => !(deb.matchesb { Pkg := n, Architecture := a, constraint := none } p)) :=
  removeLoopFuel_fst (Nat.le_succ _)

/-! ### Diagnostics projections -/

theorem addedOf_append (l1 l2 : List Diag) :
    addedOf (l1 ++ l2) = addedOf l1 ++ addedOf l2 :=
  List.filterMap_append l1 l2 _

theorem addedOf_map_removed (ps : List deb.Package) :
    addedOf (ps.map Diag.removed) = [] := by
  induction ps with
  | nil => rfl
  | cons p ps ih =>
    simp only [List.map_cons, addedOf, List.filterMap_cons]
    exact ih

theorem addedOf_removed (log : List Diag) (ps : List deb.Package) :
    addedOf (log ++ ps.map Diag.removed) = addedOf log := by
  rw [addedOf_append, addedOf_map_removed, List.append_nil]

theorem addedOf_unsat (log : List Diag) (d : deb.Dependency) :
    addedOf (log ++ [Diag.unsatisfiable d]) = addedOf log := by
  rw [addedOf_append]
  simp [addedOf]

theorem addedOf_verifyError (log : List Diag) (p : deb.Package) (m : String) :
    addedOf (log ++ [Diag.verifyError p m]) = addedOf log := by
  rw [addedOf_append]
  simp [addedOf]

theorem addedOf_added (log : List Diag) (p : deb.Package) :
    addedOf (log ++ [Diag.added p]) = addedOf log ++ [p] := by
  rw [addedOf_append]
  simp [addedOf]

theorem removeLoopFuel_addedOf (f : Nat) :
    ∀ (dest : List deb.Package) (n a : String) (am : Bool) (log : List Diag),
      addedOf (removeLoopFuel f dest n a am log).2 = addedOf log := by
  induction f with
  | zero => intro dest n a am log; rfl
  | succ f ih =>
    intro dest n a am log
    rw [removeLoopFuel]
    by_cases hp : deb.Search dest { Pkg := n, Architecture := a, constraint := none } am = []
    · simp only [hp, if_pos]
    · simp only [hp, if_neg, if_false]
      rw [ih, addedOf_removed]

theorem removeLoop_addedOf (dest : List deb.Package) (n a : String) (am : Bool)
    (log : List Diag) : addedOf (removeLoop dest n a am log).2 = addedOf log :=
  removeLoopFuel_addedOf _ dest n a am log

/-! ### Structural facts about one closure step -/

theorem processPkg_fst (a : String) (acc : List deb.Package × LoopState) (pkg : deb.Package) :
    (processPkg a acc pkg).1 = deb.Add acc.1 pkg := rfl

theorem processPkg_dest (a : String) (acc : List deb.Package × LoopState) (pkg : deb.Package) :
    ((processPkg a acc pkg).2).dest = acc.2.dest := rfl

theorem processPkg_i (a : String) (acc : List deb.Package × LoopState) (pkg : deb.Package) :
    ((processPkg a acc pkg).2).i = acc.2.i := rfl

theorem processPkg_src (a : String) (acc : List deb.Package × LoopState) (pkg : deb.Package) :
    ((processPkg a acc pkg).2).src = acc.2.src := rfl

theorem processPkg_errVar (a : String) (acc : List deb.Package × LoopState) (pkg : deb.Package) :
    ((processPkg a acc pkg).2).errVar
      = (deb.VerifyDependencies (deb.Add acc.1 pkg) [a] acc.2.dest).2 := rfl

theorem processPkg_deps (a : String) (acc : List deb.Package × LoopState) (pkg : deb.Package) :
    ((processPkg a acc pkg).2).deps
      = appendMissing acc.2.deps (deb.VerifyDependencies (deb.Add acc.1 pkg) [a] acc.2.dest).1 :=
  rfl

theorem foldl_processPkg_dest (a : String) (res : List deb.Package) :
    ∀ (pL : List deb.Package) (st : LoopState),
      ((res.foldl (processPkg a) (pL, st)).2).dest = st.dest := by
  induction res with
  | nil => intro pL st; rfl
  | cons pkg res ih =>
    intro pL st
    simp only [List.foldl_cons]
    rw [show processPkg a (pL, st) pkg
        = ((processPkg a (pL, st) pkg).1, (processPkg a (pL, st) pkg).2) from rfl]
    rw [ih]
    rfl

theorem foldl_processPkg_i (a : String) (res : List deb.Package) :
    ∀ (pL : List deb.Package) (st : LoopState),
      ((res.foldl (processPkg a) (pL, st)).2).i = st.i := by
  induction res with
  | nil => intro pL st; rfl
  | cons pkg res ih =>
    intro pL st
    simp only [List.foldl_cons]
    rw [show processPkg a (pL, st) pkg
        = ((processPkg a (pL, st) pkg).1, (processPkg a (pL, st) pkg).2) from rfl]
    rw [ih]
    rfl

theorem foldl_processPkg_src (a : String) (res : List deb.Package) :
    ∀ (pL : List deb.Package) (st : LoopState),
      ((res.foldl (processPkg a) (pL, st)).2).src = st.src := by
  induction res with
  | nil => intro pL st; rfl
  | cons pkg res ih =>
    intro pL st
    simp only [List.foldl_cons]
    rw [show processPkg a (pL, st) pkg
        = ((processPkg a (pL, st) pkg).1, (processPkg a (pL, st) pkg).2) from rfl]
    rw [ih]
    rfl

theorem step_eq_of_ge {nd nr am : Bool} {a : String} {st : LoopState}
    (h : ¬ st.i < st.deps.length) : step nd nr am a st = st := by
  unfold step
  rw [dif_neg h]

theorem step_i {nd nr am : Bool} {a : String} {st : LoopState}
    (h : st.i < st.deps.length) : (step nd nr am a st).i = st.i + 1 := by
  unfold step
  rw [dif_pos h]
  by_cases hres : deb.Search st.src st.deps[st.i] am = []
  · simp only [hres, if_pos]
  · simp only [hres, if_neg, if_false]
    by_cases hnd : nd
    · simp only [hnd, if_pos]
    · simp only [hnd, Bool.false_eq_true, if_false]

theorem step_src {nd nr am : Bool} {a : String} {st : LoopState} :
    (step nd nr am a st).src = st.src := by
  unfold step
  by_cases h : st.i < st.deps.length
  · rw [dif_pos h]
    by_cases hres : deb.Search st.src st.deps[st.i] am = []
    · simp only [hres, if_pos]
    · simp only [hres, if_neg, if_false]
      by_cases hnd : nd
      · simp only [hnd, if_pos]
      · simp only [hnd, Bool.false_eq_true, if_false]
        rw [show ∀ s : LoopState, ({ s with i := st.i + 1 } : LoopState).src = s.src
            from fun s => rfl]
        rw [foldl_processPkg_src]
  · rw [dif_neg h]

/-! ### The work-list invariant and loop termination -/

theorem mem_Add {l : List deb.Package} {p q : deb.Package} (h : q ∈ deb.Add l p) :
    q ∈ l ∨ q = p := by
  unfold deb.Add at h
  by_cases hp : p ∈ l
  · rw [if_pos hp] at h
    left; exact h
  · rw [if_neg hp] at h
    rcases List.mem_append.mp h with h1 | h1
    · left; exact h1
    · right; exact List.mem_singleton.mp h1

theorem appendMissing_inv {U : List deb.Dependency} :
    ∀ (ms ds seed extra : List deb.Dependency), ds = seed ++ extra → extra.Nodup →
      (∀ d ∈ extra, d ∈ U) → (∀ d ∈ ms, d ∈ U) →
      ∃ extra2, appendMissing ds ms = seed ++ extra2 ∧ extra2.Nodup ∧ ∀ d ∈ extra2, d ∈ U := by
  intro ms
  induction ms with
  | nil =>
    intro ds seed extra hds hn hu _
    exact ⟨extra, hds, hn, hu⟩
  | cons m ms ih =>
    intro ds seed extra hds hn hu hms
    rw [show appendMissing ds (m :: ms)
        = appendMissing (if m ∈ ds then ds else ds ++ [m]) ms from rfl]
    by_cases hm : m ∈ ds
    · rw [if_pos hm]
      exact ih ds seed extra hds hn hu (fun d hd => hms d (List.mem_cons_of_mem m hd))
    · rw [if_neg hm]
      refine ih (ds ++ [m]) seed (extra ++ [m]) ?_ ?_ ?_
        (fun d hd => hms d (List.mem_cons_of_mem m hd))
      · rw [hds, List.append_assoc]
      · rw [List.nodup_append]
        refine ⟨hn, List.nodup_singleton m, ?_⟩
        intro x hx hx2
        rw [List.mem_singleton.mp hx2] at hx
        exact hm (hds ▸ List.mem_append_right seed hx)
      · intro d hd
        rcases List.mem_append.mp hd with h1 | h1
        · exact hu d h1
        · rw [List.mem_singleton.mp h1]
          exact hms m (List.mem_cons_self m ms)

theorem mem_checkArchs {ctx : List deb.Package} {d0 d : deb.Dependency} :
    ∀ (archs : List String) (ms : List deb.Dependency), d ∈ deb.checkArchs ctx d0 archs ms →
      d ∈ ms ∨ ∃ a ∈ archs, d = { d0 with Architecture := a } := by
  intro archs
  induction archs with
  | nil =>
    intro ms h
    left; exact h
  | cons a as ih =>
    intro ms h
    rw [show deb.checkArchs ctx d0 (a :: as) ms
        = deb.checkArchs ctx d0 as
            (if deb.Search ctx { d0 with Architecture := a } false = []
                ∧ { d0 with Architecture := a } ∉ ms
             then ms ++ [{ d0 with Architecture := a }] else ms) from rfl] at h
    rcases ih _ h with h1 | ⟨a2, ha2, he⟩
    · by_cases hc : deb.Search ctx { d0 with Architecture := a } false = []
          ∧ { d0 with Architecture := a } ∉ ms
      · rw [if_pos hc] at h1
        rcases List.mem_append.mp h1 with h2 | h2
        · left; exact h2
        · right; exact ⟨a, List.mem_cons_self a as, List.mem_singleton.mp h2⟩
      · rw [if_neg hc] at h1
        left; exact h1
    · right; exact ⟨a2, List.mem_cons_of_mem a ha2, he⟩

theorem boundReqs_mono {a r : String} {rs : List String} {d : deb.Dependency}
    (h : d ∈ boundReqs a rs) : d ∈ boundReqs a (r :: rs) := by
  unfold boundReqs at h ⊢
  rw [List.mem_filterMap] at h ⊢
  rcases h with ⟨r2, hr2, he⟩
  exact ⟨r2, List.mem_cons_of_mem r hr2, he⟩

theorem mem_boundReqs_of {a : String} {reqs : List String} {r : String} {d0 : deb.Dependency}
    (hr : r ∈ reqs) (hp : deb.ParseDependency r = .ok d0) :
    { d0 with Architecture := a } ∈ boundReqs a reqs := by
  unfold boundReqs
  rw [List.mem_filterMap]
  refine ⟨r, hr, ?_⟩
  rw [hp]

theorem mem_checkReqList {ctx : List deb.Package} {pn : String} {archs : List String}
    {d : deb.Dependency} :
    ∀ (reqs : List String) (acc : List deb.Dependency × Option String),
      d ∈ (deb.checkReqList ctx pn reqs archs acc).1 →
      d ∈ acc.1 ∨ ∃ a ∈ archs, d ∈ boundReqs a reqs := by
  intro reqs
  induction reqs with
  | nil =>
    intro acc h
    left; exact h
  | cons r rs ih =>
    intro acc h
    cases hpr : deb.ParseDependency r with
    | error e =>
      rw [show deb.checkReqList ctx pn (r :: rs) archs acc
          = deb.checkReqList ctx pn rs archs
              (match deb.ParseDependency r with
               | .error _ =>
                 (acc.1,
                   match acc.2 with
                   | some m => some m
                   | none => some (pn ++ ": invalid relation"))
               | .ok d0 => (deb.checkArchs ctx d0 archs acc.1, acc.2)) from rfl] at h
      rw [hpr] at h
      rcases ih _ h with h1 | ⟨a, ha, hd⟩
      · left; exact h1
      · right; exact ⟨a, ha, boundReqs_mono hd⟩
    | ok d0 =>
      rw [show deb.checkReqList ctx pn (r :: rs) archs acc
          = deb.checkReqList ctx pn rs archs
              (match deb.ParseDependency r with
               | .error _ =>
                 (acc.1,
                   match acc.2 with
                   | some m => some m
                   | none => some (pn ++ ": invalid relation"))
               | .ok d0 => (deb.checkArchs ctx d0 archs acc.1, acc.2)) from rfl] at h
      rw [hpr] at h
      rcases ih _ h with h1 | ⟨a, ha, hd⟩
      · rcases mem_checkArchs archs acc.1 h1 with h2 | ⟨a, ha, he⟩
        · left; exact h2
        · right
          refine ⟨a, ha, ?_⟩
          rw [he]
          exact mem_boundReqs_of (List.mem_cons_self r rs) hpr
      · right; exact ⟨a, ha, boundReqs_mono hd⟩

theorem mem_verifyFold {archs : List String} {ctx : List deb.Package} {d : deb.Dependency} :
    ∀ (cand : List deb.Package) (acc : List deb.Dependency × Option String),
      d ∈ (cand.foldl (fun acc2 pkg => deb.checkReqList ctx pkg.Name pkg.requires archs acc2) acc).1 →
      d ∈ acc.1 ∨ ∃ pkg ∈ cand, ∃ a ∈ archs, d ∈ boundReqs a pkg.requires := by
  intro cand
  induction cand with
  | nil =>
    intro acc h
    left; exact h
  | cons pkg cand ih =>
    intro acc h
    simp only [List.foldl_cons] at h
    rcases ih _ h with h1 | ⟨pkg2, hp2, a, ha, hd⟩
    · rcases mem_checkReqList pkg.requires acc h1 with h2 | ⟨a, ha, hd⟩
      · left; exact h2
      · right; exact ⟨pkg, List.mem_cons_self pkg cand, a, ha, hd⟩
    · right; exact ⟨pkg2, List.mem_cons_of_mem pkg hp2, a, ha, hd⟩

theorem mem_Verify_missing {cand : List deb.Package} {archs : List String}
    {ctx : List deb.Package} {d : deb.Dependency}
    (h : d ∈ (deb.VerifyDependencies cand archs ctx).1) :
    ∃ pkg ∈ cand, ∃ a ∈ archs, d ∈ boundReqs a pkg.requires := by
  rcases mem_verifyFold cand ([], none) h with h1 | h2
  · exact absurd h1 (List.not_mem_nil d)
  · exact h2

theorem mem_exprUniverse {src : List deb.Package} {a : String} {pkg : deb.Package}
    {d : deb.Dependency} (hp : pkg ∈ src) (hd : d ∈ boundReqs a pkg.requires) :
    d ∈ exprUniverse src a := by
  unfold exprUniverse
  rw [List.mem_dedup, List.mem_flatten]
  exact ⟨boundReqs a pkg.requires, List.mem_map_of_mem _ hp, hd⟩

theorem exprUniverse_nodup (src : List deb.Package) (a : String) :
    (exprUniverse src a).Nodup :=
  List.nodup_dedup _

theorem WInv_length {seed U : List deb.Dependency} {st : LoopState} (_hU : U.Nodup)
    (h : WInv seed U st) : st.deps.length ≤ seed.length + U.length := by
  rcases h with ⟨extra, hd, hn, hu⟩
  rw [hd, List.length_append]
  have hle : extra.length ≤ U.length := (hn.subperm (fun d hd2 => hu d hd2)).length_le
  omega

theorem WInv_mk {seed U : List deb.Dependency} {st st2 : LoopState}
    (hdeps : st2.deps = st.deps) (h : WInv seed U st) : WInv seed U st2 := by
  rcases h with ⟨e, hd, hn, hu⟩
  exact ⟨e, hdeps.trans hd, hn, hu⟩

theorem foldl_processPkg_WInv {a : String} {src0 : List deb.Package}
    {seed : List deb.Dependency} :
    ∀ (res pL : List deb.Package) (st : LoopState), (∀ p ∈ pL, p ∈ src0) →
      (∀ p ∈ res, p ∈ src0) → WInv seed (exprUniverse src0 a) st →
      WInv seed (exprUniverse src0 a) ((res.foldl (processPkg a) (pL, st)).2) := by
  intro res
  induction res with
  | nil =>
    intro pL st _ _ h
    exact h
  | cons pkg res ih =>
    intro pL st hpL hres h
    simp only [List.foldl_cons]
    rw [show processPkg a (pL, st) pkg
        = ((processPkg a (pL, st) pkg).1, (processPkg a (pL, st) pkg).2) from rfl]
    apply ih
    · intro p hp
      rcases mem_Add hp with h1 | h1
      · exact hpL p h1
      · rw [h1]; exact hres pkg (List.mem_cons_self pkg res)
    · intro p hp
      exact hres p (List.mem_cons_of_mem pkg hp)
    · rcases h with ⟨extra, hd, hn, hu⟩
      have hmiss : ∀ d ∈ (deb.VerifyDependencies (deb.Add pL pkg) [a] st.dest).1,
          d ∈ exprUniverse src0 a := by
        intro d hdm
        rcases mem_Verify_missing hdm with ⟨pkg2, hp2, a2, ha2, hbr⟩
        have ha : a2 = a := by simpa using ha2
        subst ha
        have hpkg2 : pkg2 ∈ src0 := by
          rcases mem_Add hp2 with h1 | h1
          · exact hpL _ h1
          · rw [h1]; exact hres pkg (List.mem_cons_self pkg res)
        exact mem_exprUniverse hpkg2 hbr
      rcases appendMissing_inv _ st.deps seed extra hd hn hu hmiss with ⟨extra2, he, hn2, hu2⟩
      exact ⟨extra2, he, hn2, hu2⟩

theorem step_WInv {nd nr am : Bool} {a : String} {src0 : List deb.Package}
    {seed : List deb.Dependency} {st : LoopState} (hsrc : st.src = src0)
    (h : WInv seed (exprUniverse src0 a) st) :
    WInv seed (exprUniverse src0 a) (step nd nr am a st) := by
  by_cases hlt : st.i < st.deps.length
  · unfold step
    rw [dif_pos hlt]
    by_cases hres : deb.Search st.src st.deps[st.i] am = []
    · simp only [hres, if_pos]
      rcases h with ⟨extra, hd, hn, hu⟩
      exact ⟨extra, hd, hn, hu⟩
    · simp only [hres, if_neg, if_false]
      by_cases hnd : nd
      · simp only [hnd, if_pos]
        rcases h with ⟨extra, hd, hn, hu⟩
        exact ⟨extra, hd, hn, hu⟩
      · simp only [hnd, Bool.false_eq_true, if_false]
        have hsub : ∀ p ∈ deb.Search st.src st.deps[st.i] am, p ∈ src0 := by
          intro p hp
          rw [← hsrc]
          exact Search_subset hp
        exact WInv_mk rfl
          (foldl_processPkg_WInv _ [] _ (fun p hp => absurd hp (List.not_mem_nil p)) hsub
            (WInv_mk rfl h))
  · rw [step_eq_of_ge hlt]
    exact h

theorem loopGo_WInv {nd nr am : Bool} {a : String} {src0 : List deb.Package}
    {seed : List deb.Dependency} :
    ∀ (f : Nat) (st : LoopState), st.src = src0 → WInv seed (exprUniverse src0 a) st →
      WInv seed (exprUniverse src0 a) (loopGo nd nr am a f st) := by
  intro f
  induction f with
  | zero =>
    intro st _ h
    exact h
  | succ f ih =>
    intro st hsrc h
    rw [loopGo]
    by_cases hlt : st.i < st.deps.length
    · rw [if_pos hlt]
      exact ih _ (step_src.trans hsrc) (step_WInv hsrc h)
    · rw [if_neg hlt]
      exact h

theorem loopGo_completes_of (nd nr am : Bool) (a : String) (src0 : List deb.Package)
    (seed : List deb.Dependency) :
    ∀ (f : Nat) (st : LoopState), st.src = src0 → WInv seed (exprUniverse src0 a) st →
      seed.length + (exprUniverse src0 a).length ≤ st.i + f →
      completes (loopGo nd nr am a f st) := by
  intro f
  induction f with
  | zero =>
    intro st _ h hf
    have := WInv_length (exprUniverse_nodup src0 a) h
    unfold completes loopGo
    omega
  | succ f ih =>
    intro st hsrc h hf
    rw [loopGo]
    by_cases hlt : st.i < st.deps.length
    · rw [if_pos hlt]
      refine ih _ (step_src.trans hsrc) (step_WInv hsrc h) ?_
      rw [step_i hlt]
      omega
    · rw [if_neg hlt]
      unfold completes
      omega

theorem seedState_WInv (initial : List deb.Dependency) (a : String)
    (src dest : List deb.Package) (log : List Diag) (ev : Option String) :
    WInv (initial.map (fun d => { d with Architecture := a })) (exprUniverse src a)
      (seedState initial a src dest log ev) :=
  ⟨[], (List.append_nil _).symm, List.nodup_nil, by intro d hd; cases hd⟩

theorem pullArchState_completes (nd nr am : Bool) (src : List deb.Package)
    (initial : List deb.Dependency) (a : String) (cs : CoreState) :
    completes (pullArchState nd nr am src initial a cs) := by
  unfold pullArchState
  refine loopGo_completes_of nd nr am a src
    (initial.map (fun d => { d with Architecture := a })) _ _ rfl
    (seedState_WInv initial a src cs.dest cs.log cs.errVar) ?_
  unfold seedState fuelFor
  simp

theorem loopGo_length_le (nd nr am : Bool) (a : String) (src0 : List deb.Package)
    (seed : List deb.Dependency) (f : Nat) (st : LoopState) (hsrc : st.src = src0)
    (h : WInv seed (exprUniverse src0 a) st) :
    (loopGo nd nr am a f st).deps.length ≤ seed.length + (exprUniverse src0 a).length :=
  WInv_length (exprUniverse_nodup src0 a) (loopGo_WInv f st hsrc h)

/-! ### At most one version per (name, architecture) -/

theorem matchesb_key_iff {n a : String} {p : deb.Package} :
    deb.matchesb { Pkg := n, Architecture := a, constraint := none } p = true
      ↔ p.Name = n ∧ p.Architecture = a := by
  unfold deb.matchesb
  simp

theorem countNameArch_filter_key (l : List deb.Package) (n a : String) :
    countNameArch
      (l.filter
        (fun p => !(deb.matchesb { Pkg := n, Architecture := a, constraint := none } p)))
      n a = 0 := by
  unfold countNameArch
  rw [List.countP_eq_zero]
  intro p hp
  have h2 := List.of_mem_filter hp
  simp only [Bool.not_eq_true'] at h2
  simp [h2]

theorem countNameArch_Add (l : List deb.Package) (q : deb.Package) (n a : String) :
    countNameArch (deb.Add l q) n a
      ≤ countNameArch l n a
        + (if deb.matchesb { Pkg := n, Architecture := a, constraint := none } q = true
           then 1 else 0) := by
  unfold deb.Add
  by_cases hq : q ∈ l
  · rw [if_pos hq]
    split <;> omega
  · rw [if_neg hq]
    unfold countNameArch
    simp only [List.countP_append, List.countP_cons, List.countP_nil]
    split <;> omega

theorem AtMostOne_removeAdd {dest : List deb.Package} (m : deb.Package) (log : List Diag)
    (h : AtMostOne dest) :
    AtMostOne (deb.Add (removeLoop dest m.Name m.Architecture false log).1 m) := by
  intro n a
  rw [removeLoop_fst]
  have hAdd := countNameArch_Add
    (dest.filter
      (fun p =>
        !(deb.matchesb { Pkg := m.Name, Architecture := m.Architecture, constraint := none } p)))
    m n a
  by_cases hkey : deb.matchesb { Pkg := n, Architecture := a, constraint := none } m = true
  · rw [if_pos hkey] at hAdd
    rcases matchesb_key_iff.mp hkey with ⟨hn, ha⟩
    subst hn
    subst ha
    have h0 := countNameArch_filter_key dest m.Name m.Architecture
    omega
  · rw [if_neg hkey] at hAdd
    have hle : countNameArch
        (dest.filter
          (fun p =>
            !(deb.matchesb
              { Pkg := m.Name, Architecture := m.Architecture, constraint := none } p)))
        n a ≤ countNameArch dest n a :=
      (List.filter_sublist dest).countP_le _
    have hda := h n a
    omega

theorem step_unsat_eq {nd nr am : Bool} {a : String} {st : LoopState}
    (hlt : st.i < st.deps.length)
    (hres : deb.Search st.src st.deps[st.i] am = []) :
    step nd nr am a st
      = { st with i := st.i + 1, log := st.log ++ [Diag.unsatisfiable st.deps[st.i]] } := by
  unfold step
  rw [dif_pos hlt]
  simp only [hres, if_pos]

theorem step_dest_single {nd : Bool} {a : String} {st : LoopState} {m : deb.Package}
    (hlt : st.i < st.deps.length)
    (hres : deb.Search st.src st.deps[st.i] false = [m]) :
    (step nd false false a st).dest
      = deb.Add (removeLoop st.dest m.Name m.Architecture false st.log).1 m := by
  unfold step
  rw [dif_pos hlt]
  simp only [hres]
  rw [if_neg (by simp : ([m] : List deb.Package) ≠ [])]
  simp only [Bool.false_eq_true, if_false]
  by_cases hnd : nd
  · simp only [hnd, if_pos]
    rfl
  · simp only [hnd, Bool.false_eq_true, if_false]
    exact foldl_processPkg_dest a [m] [] _

theorem step_AtMostOne {nd : Bool} {a : String} {st : LoopState} (h : AtMostOne st.dest) :
    AtMostOne (step nd false false a st).dest := by
  by_cases hlt : st.i < st.deps.length
  · rcases Search_false_cases st.src st.deps[st.i] with hres | ⟨m, hres⟩
    · rw [step_unsat_eq hlt hres]
      exact h
    · rw [step_dest_single hlt hres]
      exact AtMostOne_removeAdd m st.log h
  · rw [step_eq_of_ge hlt]
    exact h

theorem loopGo_AtMostOne {nd : Bool} {a : String} :
    ∀ (f : Nat) (st : LoopState), AtMostOne st.dest →
      AtMostOne (loopGo nd false false a f st).dest := by
  intro f
  induction f with
  | zero =>
    intro st h
    exact h
  | succ f ih =>
    intro st h
    rw [loopGo]
    by_cases hlt : st.i < st.deps.length
    · rw [if_pos hlt]
      exact ih _ (step_AtMostOne h)
    · rw [if_neg hlt]
      exact h

theorem pullArch_AtMostOne {nd : Bool} {src : List deb.Package}
    {initial : List deb.Dependency} {a : String} {cs : CoreState}
    (h : AtMostOne cs.dest) : AtMostOne (pullArch nd false false src initial a cs).dest :=
  loopGo_AtMostOne _ _ h

theorem pullCoreFold_AtMostOne {nd : Bool} {src : List deb.Package}
    {initial : List deb.Dependency} :
    ∀ (archs : List String) (cs : CoreState), AtMostOne cs.dest →
      AtMostOne
        ((archs.foldl (fun cs2 a => pullArch nd false false src initial a cs2) cs)).dest := by
  intro archs
  induction archs with
  | nil =>
    intro cs h
    exact h
  | cons a archs ih =>
    intro cs h
    simp only [List.foldl_cons]
    exact ih _ (pullArch_AtMostOne h)

theorem pullCore_AtMostOne {nd : Bool} {src : List deb.Package} {archs : List String}
    {initial : List deb.Dependency} {dest0 : List deb.Package} (h : AtMostOne dest0) :
    AtMostOne (pullCore nd false false src archs initial dest0).dest :=
  pullCoreFold_AtMostOne archs _ h

theorem aptly_dest_cases (inp : PullInput) :
    (aptlySnapshotPull inp).dest = inp.destList
    ∨ ∃ initial, parseDependencyList inp.depArgs = .ok initial
        ∧ (aptlySnapshotPull inp).dest
            = (pullCore inp.noDeps inp.noRemove inp.allMatches inp.srcList
                (targetArchitectures inp) initial inp.destList).dest := by
  unfold aptlySnapshotPull
  by_cases h0 : inp.depArgs = []
  · rw [if_pos h0]
    left; rfl
  · rw [if_neg h0]
    by_cases h1 : targetArchitectures inp = []
    · rw [if_pos h1]
      left; rfl
    · rw [if_neg h1]
      cases hp : parseDependencyList inp.depArgs with
      | error e =>
        left
        simp [hp]
      | ok initial =>
        simp only [hp]
        right
        refine ⟨initial, rfl, ?_⟩
        by_cases hdr : inp.dryRun
        · simp only [hdr, if_pos]
        · simp only [hdr, Bool.false_eq_true, if_false]
          by_cases hreg : inp.destName ∈ inp.registryNames
          · rw [if_pos hreg]
          · rw [if_neg hreg]

/-! ### The noDeps run adds exactly the direct search results -/

theorem addedOf_rm {am : Bool} (res : List deb.Package) :
    ∀ dl : List deb.Package × List Diag,
      addedOf
        (res.foldl (fun dl pkg => removeLoop dl.1 pkg.Name pkg.Architecture am dl.2) dl).2
        = addedOf dl.2 := by
  induction res with
  | nil =>
    intro dl
    rfl
  | cons pkg res ih =>
    intro dl
    simp only [List.foldl_cons]
    rw [ih]
    exact removeLoop_addedOf _ _ _ _ _

theorem addedOf_ad (res : List deb.Package) :
    ∀ dl : List deb.Package × List Diag,
      addedOf
        (res.foldl (fun dl pkg => (deb.Add dl.1 pkg, dl.2 ++ [Diag.added pkg])) dl).2
        = addedOf dl.2 ++ res := by
  induction res with
  | nil =>
    intro dl
    simp
  | cons pkg res ih =>
    intro dl
    simp only [List.foldl_cons]
    rw [ih]
    rw [addedOf_added]
    simp

theorem step_noDeps_log_eq {nr am : Bool} {a : String} {st : LoopState}
    (hlt : st.i < st.deps.length) (hres : deb.Search st.src st.deps[st.i] am ≠ []) :
    (step true nr am a st).log
      = ((deb.Search st.src st.deps[st.i] am).foldl
          (fun dl pkg => (deb.Add dl.1 pkg, dl.2 ++ [Diag.added pkg]))
          (if nr = true then (st.dest, st.log)
           else (deb.Search st.src st.deps[st.i] am).foldl
              (fun dl pkg => removeLoop dl.1 pkg.Name pkg.Architecture am dl.2)
              (st.dest, st.log))).2 := by
  unfold step
  rw [dif_pos hlt]
  simp only [if_neg hres, eq_self_iff_true, if_true]

theorem step_noDeps_addedOf (nr am : Bool) (a : String) {st : LoopState}
    (hlt : st.i < st.deps.length) :
    addedOf (step true nr am a st).log
      = addedOf st.log ++ deb.Search st.src st.deps[st.i] am := by
  by_cases hres : deb.Search st.src st.deps[st.i] am = []
  · rw [step_unsat_eq hlt hres, hres, List.append_nil]
    exact addedOf_unsat st.log st.deps[st.i]
  · rw [step_noDeps_log_eq hlt hres]
    rw [addedOf_ad]
    by_cases hnr : nr
    · rw [if_pos hnr]
    · rw [if_neg hnr]
      rw [addedOf_rm]

theorem step_noDeps_deps (nr am : Bool) (a : String) (st : LoopState) :
    (step true nr am a st).deps = st.deps := by
  by_cases hlt : st.i < st.deps.length
  · by_cases hres : deb.Search st.src st.deps[st.i] am = []
    · rw [step_unsat_eq hlt hres]
    · rw [show (step true nr am a st).deps
          = ((step true nr am a st).log, (step true nr am a st).deps).2 from rfl]
      unfold step
      rw [dif_pos hlt]
      simp only [if_neg hres, eq_self_iff_true, if_true]
  · rw [step_eq_of_ge hlt]

theorem loopGo_noDeps (nr am : Bool) (a : String) :
    ∀ (f : Nat) (st : LoopState), st.deps.length ≤ st.i + f →
      addedOf (loopGo true nr am a f st).log
        = addedOf st.log
          ++ (st.deps.drop st.i).flatMap (fun d => deb.Search st.src d am)
      ∧ (loopGo true nr am a f st).deps = st.deps := by
  intro f
  induction f with
  | zero =>
    intro st hf
    have hd : st.deps.drop st.i = [] := List.drop_eq_nil_of_le (by omega)
    constructor
    · rw [hd]
      simp [loopGo]
    · rfl
  | succ f ih =>
    intro st hf
    rw [loopGo]
    by_cases hlt : st.i < st.deps.length
    · rw [if_pos hlt]
      have hstep := step_noDeps_addedOf nr am a hlt
      have hdeps := step_noDeps_deps nr am a st
      have hsrc : (step true nr am a st).src = st.src := step_src
      have hi : (step true nr am a st).i = st.i + 1 := step_i hlt
      obtain ⟨ih1, ih2⟩ := ih (step true nr am a st) (by rw [hdeps, hi]; omega)
      constructor
      · rw [ih1, hstep, hdeps, hi, hsrc]
        rw [List.drop_eq_getElem_cons hlt, List.flatMap_cons, List.append_assoc]
      · rw [ih2, hdeps]
    · rw [if_neg hlt]
      have hd : st.deps.drop st.i = [] := List.drop_eq_nil_of_le (by omega)
      constructor
      · rw [hd]
        simp
      · rfl

theorem pullArchState_noDeps (nr am : Bool) (src : List deb.Package)
    (initial : List deb.Dependency) (a : String) (cs : CoreState) :
    addedOf (pullArchState true nr am src initial a cs).log
      = addedOf cs.log
        ++ (initial.map (fun d => { d with Architecture := a })).flatMap
            (fun d => deb.Search src d am)
      ∧ (pullArchState true nr am src initial a cs).deps
        = initial.map (fun d => { d with Architecture := a }) := by
  unfold pullArchState
  have h := loopGo_noDeps nr am a (fuelFor src initial a)
    (seedState initial a src cs.dest cs.log cs.errVar)
    (by unfold seedState fuelFor; simp)
  simpa [seedState] using h

theorem pullCoreFold_noDeps (nr am : Bool) (src : List deb.Package)
    (initial : List deb.Dependency) :
    ∀ (archs : List String) (cs : CoreState),
      addedOf ((archs.foldl (fun cs2 a => pullArch true nr am src initial a cs2) cs)).log
        = addedOf cs.log
          ++ archs.flatMap
              (fun a =>
                (initial.map (fun d => { d with Architecture := a })).flatMap
                  (fun d => deb.Search src d am)) := by
  intro archs
  induction archs with
  | nil =>
    intro cs
    simp
  | cons a archs ih =>
    intro cs
    simp only [List.foldl_cons]
    rw [ih]
    rw [show addedOf (pullArch true nr am src initial a cs).log
        = addedOf (pullArchState true nr am src initial a cs).log from rfl]
    rw [(pullArchState_noDeps nr am src initial a cs).1]
    rw [List.flatMap_cons, List.append_assoc]

theorem pullCore_noDeps (nr am : Bool) (src : List deb.Package) (archs : List String)
    (initial : List deb.Dependency) (dest0 : List deb.Package) :
    addedOf (pullCore true nr am src archs initial dest0).log
      = archs.flatMap
          (fun a =>
            (initial.map (fun d => { d with Architecture := a })).flatMap
              (fun d => deb.Search src d am)) := by
  unfold pullCore
  rw [pullCoreFold_noDeps]
  rfl

/-! ### Top-level run characterization -/

theorem loopGo_src {nd nr am : Bool} {a : String} :
    ∀ (f : Nat) (st : LoopState), (loopGo nd nr am a f st).src = st.src := by
  intro f
  induction f with
  | zero =>
    intro st
    rfl
  | succ f ih =>
    intro st
    rw [loopGo]
    by_cases hlt : st.i < st.deps.length
    · rw [if_pos hlt]
      rw [ih (step nd nr am a st)]
      exact step_src
    · rw [if_neg hlt]

theorem pullArchState_src (nd nr am : Bool) (src : List deb.Package)
    (initial : List deb.Dependency) (a : String) (cs : CoreState) :
    (pullArchState nd nr am src initial a cs).src = src := by
  unfold pullArchState
  rw [loopGo_src]
  rfl

theorem processPkg_eq_of_error {a : String} {pL : List deb.Package} {st : LoopState}
    {pkg : deb.Package} {missing : List deb.Dependency} {m : String}
    (h : deb.VerifyDependencies (deb.Add pL pkg) [a] st.dest = (missing, some m)) :
    processPkg a (pL, st) pkg
      = (deb.Add pL pkg,
         { st with
           log := st.log ++ [Diag.verifyError pkg m]
           errVar := some m
           deps := appendMissing st.deps missing }) := by
  unfold processPkg
  simp only [h]

theorem parseDependencyList_error {l : List String}
    (h : ∃ s ∈ l, ∃ e, deb.ParseDependency s = .error e) :
    ∃ e2, parseDependencyList l = Except.error e2 := by
  induction l with
  | nil =>
    rcases h with ⟨s, hs, _⟩
    cases hs
  | cons s0 rest ih =>
    rcases h with ⟨s, hs, e, he⟩
    rcases List.mem_cons.mp hs with h1 | h1
    · subst h1
      exact ⟨e, by simp [parseDependencyList, he]⟩
    · cases hp : deb.ParseDependency s0 with
      | error e0 => exact ⟨e0, by simp [parseDependencyList, hp]⟩
      | ok d0 =>
        rcases ih ⟨s, h1, e, he⟩ with ⟨e2, he2⟩
        exact ⟨e2, by simp [parseDependencyList, hp, he2]⟩

theorem aptly_run_eq {inp : PullInput} {initial : List deb.Dependency}
    (h0 : inp.depArgs ≠ []) (h1 : targetArchitectures inp ≠ [])
    (hp : parseDependencyList inp.depArgs = .ok initial) :
    aptlySnapshotPull inp
      = (if inp.dryRun then
          { dest := (pullCore inp.noDeps inp.noRemove inp.allMatches inp.srcList
                (targetArchitectures inp) initial inp.destList).dest,
            log := (pullCore inp.noDeps inp.noRemove inp.allMatches inp.srcList
                (targetArchitectures inp) initial inp.destList).log,
            snapshot := none,
            ret := (pullCore inp.noDeps inp.noRemove inp.allMatches inp.srcList
                (targetArchitectures inp) initial inp.destList).errVar }
        else if inp.destName ∈ inp.registryNames then
          { dest := (pullCore inp.noDeps inp.noRemove inp.allMatches inp.srcList
                (targetArchitectures inp) initial inp.destList).dest,
            log := (pullCore inp.noDeps inp.noRemove inp.allMatches inp.srcList
                (targetArchitectures inp) initial inp.destList).log,
            snapshot := none,
            ret := some "unable to create snapshot: duplicate name" }
        else
          { dest := (pullCore inp.noDeps inp.noRemove inp.allMatches inp.srcList
                (targetArchitectures inp) initial inp.destList).dest,
            log := (pullCore inp.noDeps inp.noRemove inp.allMatches inp.srcList
                (targetArchitectures inp) initial inp.destList).log,
            snapshot := some
              { Name := inp.destName, Parents := [inp.snapName, inp.srcName],
                packages := (pullCore inp.noDeps inp.noRemove inp.allMatches inp.srcList
                  (targetArchitectures inp) initial inp.destList).dest,
                description := pullDescription inp },
            ret := none }) := by
  unfold aptlySnapshotPull
  rw [if_neg h0, if_neg h1]
  simp only [hp]

theorem appendMissing_mem_iff :
    ∀ (ms ds : List deb.Dependency) (d : deb.Dependency),
      d ∈ appendMissing ds ms ↔ d ∈ ds ∨ d ∈ ms := by
  intro ms
  induction ms with
  | nil =>
    intro ds d
    simp [appendMissing]
  | cons m ms ih =>
    intro ds d
    rw [show appendMissing ds (m :: ms)
        = appendMissing (if m ∈ ds then ds else ds ++ [m]) ms from rfl]
    rw [ih]
    by_cases hm : m ∈ ds
    · rw [if_pos hm]
      simp only [List.mem_cons]
      constructor
      · intro h
        rcases h with h | h
        · exact Or.inl h
        · exact Or.inr (Or.inr h)
      · intro h
        rcases h with h | h | h
        · exact Or.inl h
        · exact Or.inl (h ▸ hm)
        · exact Or.inr h
    · rw [if_neg hm]
      simp only [List.mem_append, List.mem_cons]
      constructor
      · intro h
        rcases h with (h | h) | h
        · exact Or.inl h
        · rcases h with h | h
          · exact Or.inr (Or.inl h)
          · cases h
        · exact Or.inr (Or.inr h)
      · intro h
        rcases h with h | h | h
        · exact Or.inl (Or.inl h)
        · exact Or.inl (Or.inr (Or.inl h))
        · exact Or.inr h

/-! ### The claims -/

/-- C2 (amended): for every run of the pull closure, the per-architecture
work list never exceeds `I + R` entries, where `I` is the number of initial
expressions and `R` is the number of distinct dependency expressions
parseable from the source packages' requires-relations bound to that
architecture (the spec's bound `D` — the number of distinct (name,
architecture) pairs of the source — is wrong; see the counterexample);
consequently the closure loop terminates, and an expression joins the work
list only when it is new or initial. -/
theorem c2_worklist_bound (nd nr am : Bool) (src : List deb.Package)
    (initial : List deb.Dependency) (a : String) (cs : CoreState) (f : Nat) :
    (loopGo nd nr am a f (seedState initial a src cs.dest cs.log cs.errVar)).deps.length
      ≤ initial.length + (exprUniverse src a).length
    ∧ completes (pullArchState nd nr am src initial a cs)
    ∧ (∀ (ds ms : List deb.Dependency) (d : deb.Dependency),
        d ∈ appendMissing ds ms ↔ d ∈ ds ∨ d ∈ ms) := by
  refine ⟨?_, pullArchState_completes nd nr am src initial a cs,
    fun ds ms d => appendMissing_mem_iff ms ds d⟩
  have h := loopGo_length_le nd nr am a src
    (initial.map (fun d => { d with Architecture := a })) f
    (seedState initial a src cs.dest cs.log cs.errVar) rfl
    (seedState_WInv initial a src cs.dest cs.log cs.errVar)
  simpa using h

/-- C2 (counterexample): with a source of a single package — one distinct
(name, architecture) pair, `D = 1` — and the two user arguments `b`, `c`,
the work list of the `amd64` closure already holds 2 > D entries at its
reachable initial state, refuting the spec's `D` bound. -/
theorem c2_counterexample :
    parseDependencyList ["b", "c"]
      = Except.ok [{ Pkg := "b", Architecture := "", constraint := none },
                   { Pkg := "c", Architecture := "", constraint := none }]
    ∧ (loopGo false false false "amd64" 0
        (seedState
          [{ Pkg := "b", Architecture := "", constraint := none },
           { Pkg := "c", Architecture := "", constraint := none }]
          "amd64"
          [{ Name := "a", Version := 1, Architecture := "amd64", requires := [] }]
          [] [] none)).deps.length = 2
    ∧ distinctNameArch
        [{ Name := "a", Version := 1, Architecture := "amd64", requires := [] }] = 1
    ∧ ¬((loopGo false false false "amd64" 0
        (seedState
          [{ Pkg := "b", Architecture := "", constraint := none },
           { Pkg := "c", Architecture := "", constraint := none }]
          "amd64"
          [{ Name := "a", Version := 1, Architecture := "amd64", requires := [] }]
          [] [] none)).deps.length
      ≤ distinctNameArch
          [{ Name := "a", Version := 1, Architecture := "amd64", requires := [] }]) := by
  refine ⟨rfl, rfl, rfl, ?_⟩
  decide

/-- C4: a work-list expression whose search of the source returns no match
only records an unsatisfiable diagnostic and advances the loop index — the
destination, work list, source and error variable are untouched — and the
per-architecture run still completes. -/
theorem c4_unsatisfiable_nonfatal (nd nr am : Bool) (a : String) (st : LoopState)
    (h : st.i < st.deps.length)
    (hres : deb.Search st.src st.deps[st.i] am = []) :
    step nd nr am a st
      = { st with i := st.i + 1, log := st.log ++ [Diag.unsatisfiable st.deps[st.i]] }
    ∧ ∀ (src : List deb.Package) (initial : List deb.Dependency) (cs : CoreState),
        completes (pullArchState nd nr am src initial a cs) :=
  ⟨step_unsat_eq h hres,
   fun src initial cs => pullArchState_completes nd nr am src initial a cs⟩

/-- C4 (witness): the unsatisfiable expression `z` on an empty source. -/
theorem c4_witness :
    step false false false "amd64"
      { deps := [{ Pkg := "z", Architecture := "amd64", constraint := none }], i := 0,
        dest := [], src := [], log := [], errVar := none }
      = { deps := [{ Pkg := "z", Architecture := "amd64", constraint := none }], i := 1,
          dest := [], src := [],
          log := [Diag.unsatisfiable { Pkg := "z", Architecture := "amd64", constraint := none }],
          errVar := none } :=
  (c4_unsatisfiable_nonfatal false false false "amd64"
    { deps := [{ Pkg := "z", Architecture := "amd64", constraint := none }], i := 0,
      dest := [], src := [], log := [], errVar := none }
    (by decide) rfl).1

/-- C8: the source package list is read-only across the whole closure: one
step, any number of loop iterations, and a whole per-architecture run all
leave the `src` component exactly as it was. -/
theorem c8_source_read_only (nd nr am : Bool) (a : String) :
    (∀ st : LoopState, (step nd nr am a st).src = st.src)
    ∧ (∀ (f : Nat) (st : LoopState), (loopGo nd nr am a f st).src = st.src)
    ∧ (∀ (src : List deb.Package) (initial : List deb.Dependency) (cs : CoreState),
        (pullArchState nd nr am src initial a cs).src = src) :=
  ⟨fun _ => step_src, loopGo_src,
   fun src initial cs => pullArchState_src nd nr am src initial a cs⟩

/-- C9: a dependency-verification error for a package discovered
mid-closure is non-fatal: the per-package processing only appends a
diagnostic naming the package, stores the error in the shared variable,
and still appends the missing dependencies; the per-architecture run still
completes. -/
theorem c9_verify_error_nonfatal (a : String) (pL : List deb.Package) (st : LoopState)
    (pkg : deb.Package) (missing : List deb.Dependency) (m : String)
    (h : deb.VerifyDependencies (deb.Add pL pkg) [a] st.dest = (missing, some m)) :
    processPkg a (pL, st) pkg
      = (deb.Add pL pkg,
         { st with
           log := st.log ++ [Diag.verifyError pkg m]
           errVar := some m
           deps := appendMissing st.deps missing })
    ∧ ∀ (nd nr am : Bool) (src : List deb.Package) (initial : List deb.Dependency)
        (cs : CoreState), completes (pullArchState nd nr am src initial a cs) :=
  ⟨processPkg_eq_of_error h,
   fun nd nr am src initial cs => pullArchState_completes nd nr am src initial a cs⟩

/-- C9 (witness): the package `x` carries the malformed relation `y (`;
verification reports it and processing continues. -/
theorem c9_witness :
    processPkg "amd64"
      ([], { deps := [], i := 0, dest := [], src := [], log := [], errVar := none })
      { Name := "x", Version := 1, Architecture := "amd64", requires := ["y ("] }
      = ([{ Name := "x", Version := 1, Architecture := "amd64", requires := ["y ("] }],
         { deps := [], i := 0, dest := [], src := [],
           log := [Diag.verifyError
             { Name := "x", Version := 1, Architecture := "amd64", requires := ["y ("] }
             "x: invalid relation"],
           errVar := some "x: invalid relation" }) :=
  (c9_verify_error_nonfatal "amd64" []
    { deps := [], i := 0, dest := [], src := [], log := [], errVar := none }
    { Name := "x", Version := 1, Architecture := "amd64", requires := ["y ("] }
    [] "x: invalid relation" rfl).1

/-- C1 (amended): after a pull with `no_remove = false` that is also run
with `all_matches = false`, a destination that started with at most one
version per (name, architecture) still has at most one version per (name,
architecture); and the removal step indeed deletes, by repeated
search-and-remove, exactly the destination packages sharing a match's name
and architecture.  (As stated the claim is false: with `all_matches = true`
one work-list entry can add several versions at once — see the
counterexample.) -/
theorem c1_at_most_one_version (inp : PullInput) (ham : inp.allMatches = false)
    (hnr : inp.noRemove = false) (h : AtMostOne inp.destList) :
    AtMostOne (aptlySnapshotPull inp).dest
    ∧ ∀ (dest : List deb.Package) (n a : String) (am : Bool) (log : List Diag),
        (removeLoop dest n a am log).1
          = dest.filter
              (fun p =>
                !(deb.matchesb { Pkg := n, Architecture := a, constraint := none } p)) := by
  refine ⟨?_, fun dest n a am log => removeLoop_fst dest n a am log⟩
  rcases aptly_dest_cases inp with hc | ⟨initial, hp, hc⟩
  · rw [hc]
    exact h
  · rw [hc, ham, hnr]
    exact pullCore_AtMostOne h

/-- C1 (counterexample): pulling `a` with `all-matches` from a source
holding versions 1 and 2 of `a` leaves two versions of (a, amd64) in the
destination even though `no_remove = false`. -/
theorem c1_counterexample :
    c1Input.noRemove = false
    ∧ countNameArch (aptlySnapshotPull c1Input).dest "a" "amd64" = 2
    ∧ ¬(countNameArch (aptlySnapshotPull c1Input).dest "a" "amd64" ≤ 1) := by
  refine ⟨rfl, rfl, ?_⟩
  decide

/-- C1 (witness): the closure scenario run with `all_matches = false` from
an empty destination keeps (a, amd64) at a single version. -/
theorem c1_witness :
    countNameArch (aptlySnapshotPull c1WitnessInput).dest "a" "amd64" ≤ 1 :=
  (c1_at_most_one_version c1WitnessInput rfl rfl
    (fun n a => by simp [countNameArch, c1WitnessInput])).1 "a" "amd64"

theorem flatMap_nil_fun {α β : Type} (l : List α) :
    l.flatMap (fun _ => ([] : List β)) = [] := by
  induction l with
  | nil => rfl
  | cons x xs ih => simp [List.flatMap_cons, ih]

/-- C3: with `no_deps = true` the additions reported by the pull are
exactly the source search results of the initial expressions bound to each
processed architecture, in order, and the work list never grows beyond the
initial expressions. -/
theorem c3_no_deps_isolation (inp : PullInput) (initial : List deb.Dependency)
    (hnd : inp.noDeps = true) (hp : parseDependencyList inp.depArgs = .ok initial) :
    addedOf (aptlySnapshotPull inp).log
      = (targetArchitectures inp).flatMap
          (fun a =>
            (initial.map (fun d => { d with Architecture := a })).flatMap
              (fun d => deb.Search inp.srcList d inp.allMatches))
    ∧ ∀ (a : String) (cs : CoreState),
        (pullArchState inp.noDeps inp.noRemove inp.allMatches inp.srcList initial a cs).deps
          = initial.map (fun d => { d with Architecture := a }) := by
  constructor
  · by_cases h0 : inp.depArgs = []
    · have hinit : initial = [] := by
        rw [h0] at hp
        exact (Except.ok.inj hp).symm
      unfold aptlySnapshotPull
      rw [if_pos h0, hinit]
      simp [addedOf, flatMap_nil_fun]
    · by_cases h1 : targetArchitectures inp = []
      · unfold aptlySnapshotPull
        rw [if_neg h0, if_pos h1, h1]
        simp [addedOf]
      · rw [aptly_run_eq h0 h1 hp]
        by_cases hdr : inp.dryRun
        · rw [if_pos hdr, hnd]
          exact pullCore_noDeps inp.noRemove inp.allMatches inp.srcList
            (targetArchitectures inp) initial inp.destList
        · rw [if_neg hdr]
          by_cases hreg : inp.destName ∈ inp.registryNames
          · rw [if_pos hreg, hnd]
            exact pullCore_noDeps inp.noRemove inp.allMatches inp.srcList
              (targetArchitectures inp) initial inp.destList
          · rw [if_neg hreg, hnd]
            exact pullCore_noDeps inp.noRemove inp.allMatches inp.srcList
              (targetArchitectures inp) initial inp.destList
  · intro a cs
    rw [hnd]
    exact (pullArchState_noDeps inp.noRemove inp.allMatches inp.srcList initial a cs).2

/-- C3 (witness): the concrete no-deps pull of `a`. -/
theorem c3_witness :
    addedOf (aptlySnapshotPull c3Input).log
      = (targetArchitectures c3Input).flatMap
          (fun a =>
            (([{ Pkg := "a", Architecture := "", constraint := none }] :
                List deb.Dependency).map (fun d => { d with Architecture := a })).flatMap
              (fun d => deb.Search c3Input.srcList d c3Input.allMatches)) :=
  (c3_no_deps_isolation c3Input
    [{ Pkg := "a", Architecture := "", constraint := none }] rfl rfl).1

/-- C5: a non-empty externally supplied architecture list is used (sorted);
an empty one is replaced by the destination's own architectures excluding
the source pseudo-architecture (sorted); the processed order is sorted; and
when the chosen list is empty the run aborts before any search, removal or
addition, with the destination untouched, no diagnostics and no
snapshot. -/
theorem c5_architecture_selection (inp : PullInput) :
    (inp.externalArchs ≠ [] → targetArchitectures inp = sortStrings inp.externalArchs)
    ∧ (inp.externalArchs = [] →
        targetArchitectures inp = sortStrings (deb.Architectures inp.destList false))
    ∧ List.Sorted (fun a b => a ≤ b) (targetArchitectures inp)
    ∧ (targetArchitectures inp = [] → inp.depArgs ≠ [] →
        aptlySnapshotPull inp
          = { dest := inp.destList, log := [], snapshot := none,
              ret := some "unable to determine list of architectures, please specify explicitly" }) := by
  refine ⟨?_, ?_, ?_, ?_⟩
  · intro hne
    unfold targetArchitectures
    rw [if_pos hne]
  · intro he
    unfold targetArchitectures
    rw [if_neg (not_not_intro he)]
  · unfold targetArchitectures sortStrings
    exact List.sorted_insertionSort _ _
  · intro h1 h0
    unfold aptlySnapshotPull
    rw [if_neg h0, if_pos h1]

/-- C5 (witness): empty external list and empty destination: the run fails
with the no-architectures error and no side effects. -/
theorem c5_witness :
    aptlySnapshotPull c5Input
      = { dest := c5Input.destList, log := [], snapshot := none,
          ret := some "unable to determine list of architectures, please specify explicitly" } :=
  (c5_architecture_selection c5Input).2.2.2 rfl (by decide)

/-- C6: if any dependency argument fails to parse, the whole run returns an
error with the destination list unchanged, no diagnostics emitted and no
snapshot created, wherever the malformed argument sits. -/
theorem c6_parse_error_aborts (inp : PullInput)
    (h : ∃ s ∈ inp.depArgs, ∃ e, deb.ParseDependency s = .error e) :
    ∃ msg, aptlySnapshotPull inp
      = { dest := inp.destList, log := [], snapshot := none, ret := some msg } := by
  by_cases h0 : inp.depArgs = []
  · rcases h with ⟨s, hs, _⟩
    rw [h0] at hs
    cases hs
  · by_cases h1 : targetArchitectures inp = []
    · refine ⟨"unable to determine list of architectures, please specify explicitly", ?_⟩
      unfold aptlySnapshotPull
      rw [if_neg h0, if_pos h1]
    · rcases parseDependencyList_error h with ⟨e2, he2⟩
      refine ⟨"unable to parse argument: " ++ e2, ?_⟩
      unfold aptlySnapshotPull
      rw [if_neg h0, if_neg h1]
      simp only [he2]

/-- C6 (witness): the malformed `b (` sits in the middle of the argument
list and still aborts the run with no side effects. -/
theorem c6_witness :
    ∃ msg, aptlySnapshotPull c6Input
      = { dest := c6Input.destList, log := [], snapshot := none, ret := some msg } :=
  c6_parse_error_aborts c6Input ⟨"b (", by decide, "invalid dependency", rfl⟩

/-- C7: when the run reaches the end, a dry run creates no snapshot, while
a non-dry run whose destination name is free persists a snapshot built
from the resulting destination list, with the destination snapshot and the
source snapshot recorded as parents in that order, and returns no
error. -/
theorem c7_snapshot_creation (inp : PullInput) (initial : List deb.Dependency)
    (h0 : inp.depArgs ≠ []) (h1 : targetArchitectures inp ≠ [])
    (hp : parseDependencyList inp.depArgs = .ok initial) :
    (inp.dryRun = true → (aptlySnapshotPull inp).snapshot = none)
    ∧ (inp.dryRun = false → inp.destName ∉ inp.registryNames →
        (aptlySnapshotPull inp).snapshot
          = some
              { Name := inp.destName, Parents := [inp.snapName, inp.srcName],
                packages := (pullCore inp.noDeps inp.noRemove inp.allMatches inp.srcList
                  (targetArchitectures inp) initial inp.destList).dest,
                description := pullDescription inp }
        ∧ (aptlySnapshotPull inp).ret = none) := by
  rw [aptly_run_eq h0 h1 hp]
  constructor
  · intro hdr
    rw [if_pos hdr]
  · intro hdr hreg
    rw [if_neg (by simp [hdr]), if_neg hreg]
    exact ⟨rfl, rfl⟩

/-- C7 (witness): the concrete non-dry-run pull persists the snapshot
`new` with parents `dst`, `src`. -/
theorem c7_witness :
    (aptlySnapshotPull c7Input).snapshot
      = some
          { Name := c7Input.destName, Parents := [c7Input.snapName, c7Input.srcName],
            packages := (pullCore c7Input.noDeps c7Input.noRemove c7Input.allMatches
              c7Input.srcList (targetArchitectures c7Input)
              [{ Pkg := "a", Architecture := "", constraint := none }] c7Input.destList).dest,
            description := pullDescription c7Input }
    ∧ (aptlySnapshotPull c7Input).ret = none :=
  (c7_snapshot_creation c7Input
    [{ Pkg := "a", Architecture := "", constraint := none }]
    (by decide) (by decide) rfl).2 rfl (by decide)

/-- C10: the returned value reuses the shared `err` variable: under
dry-run it is whatever the last dependency-verification call left there
(the core state's `errVar`), while without dry-run it only reflects the
snapshot persist step — `none` on success, the duplicate-name error
otherwise; and each verification call overwrites `errVar` with exactly its
own error component. -/
theorem c10_return_value (inp : PullInput) (initial : List deb.Dependency)
    (h0 : inp.depArgs ≠ []) (h1 : targetArchitectures inp ≠ [])
    (hp : parseDependencyList inp.depArgs = .ok initial) :
    (inp.dryRun = true →
      (aptlySnapshotPull inp).ret
        = (pullCore inp.noDeps inp.noRemove inp.allMatches inp.srcList
            (targetArchitectures inp) initial inp.destList).errVar)
    ∧ (inp.dryRun = false → inp.destName ∉ inp.registryNames →
        (aptlySnapshotPull inp).ret = none)
    ∧ (inp.dryRun = false → inp.destName ∈ inp.registryNames →
        (aptlySnapshotPull inp).ret = some "unable to create snapshot: duplicate name")
    ∧ (∀ (a2 : String) (acc : List deb.Package × LoopState) (pkg : deb.Package),
        ((processPkg a2 acc pkg).2).errVar
          = (deb.VerifyDependencies (deb.Add acc.1 pkg) [a2] acc.2.dest).2) := by
  rw [aptly_run_eq h0 h1 hp]
  refine ⟨?_, ?_, ?_, fun a2 acc pkg => rfl⟩
  · intro hdr
    rw [if_pos hdr]
  · intro hdr hreg
    rw [if_neg (by simp [hdr]), if_neg hreg]
  · intro hdr hreg
    rw [if_neg (by simp [hdr]), if_pos hreg]

/-- C10 (witness): a dry run whose single verification call fails returns
that error even though the closure completed. -/
theorem c10_witness :
    (aptlySnapshotPull c10Input).ret
      = (pullCore c10Input.noDeps c10Input.noRemove c10Input.allMatches c10Input.srcList
          (targetArchitectures c10Input)
          [{ Pkg := "a", Architecture := "", constraint := none }] c10Input.destList).errVar
    ∧ (aptlySnapshotPull c10Input).ret = some "a: invalid relation" :=
  ⟨(c10_return_value c10Input
      [{ Pkg := "a", Architecture := "", constraint := none }]
      (by decide) (by decide) rfl).1 rfl,
   rfl⟩
